import Mathlib

/-!
Verification of the `Parser` class from `promptify/parser/parser.py`.

The development shallowly embeds the parser module: Python values produced by
`json.loads` / `eval` / `ast.literal_eval` are modelled by the inductive type
`PyVal`; Python exceptions are modelled by `PyErr`, and fallible Python code
returns `Except PyErr _`.  The external library primitives (`json.loads`,
`eval`, `ast.literal_eval`, `re` searches, `sorted`, `max`) are modelled on
the fragment the module exercises, as documented on each definition.  The
module's own functions (`is_valid_json`, `get_combinations`,
`complete_json_object`, `get_possible_completions`, `fit`, `find_max_length`,
`extract_complete_objects`) are translated line by line from the source.

A central fact of the source is that `complete_json_object` and
`find_max_length` are defined *without* a `self` parameter yet are invoked as
bound methods (`self.complete_json_object(...)`, `self.find_max_length(...)`).
A bound-method call passes the instance as an extra first argument, so every
such call raises `TypeError` before the function body runs; the embedding
models these call sites explicitly (`boundCall_complete_json_object`,
`boundCall_find_max_length`).
-/

/-- Python values arising from `json.loads`, `eval` and `ast.literal_eval` in
this module: `None`, booleans, integers, strings, lists and string-keyed
dicts.  Dicts are modelled as association lists in insertion order (every
dict arising in the claims has distinct keys, so no collapsing occurs);
numbers are modelled as integers (no input in the module's contract uses
floats). -/
inductive PyVal where
  | none : PyVal
  | bool : Bool → PyVal
  | int : Int → PyVal
  | str : String → PyVal
  | list : List PyVal → PyVal
  | dict : List (String × PyVal) → PyVal

/-- Python exceptions raised by the modelled fragment: `TypeError`,
`ValueError` (of which `json.JSONDecodeError` is a subclass), `IndexError`,
and the `SyntaxError`/`NameError` family raised by `eval` on unparseable
input (collapsed into one constructor, since the module only ever catches
the blanket `Exception`). -/
inductive PyErr where
  | typeErr (msg : String)
  | valueErr (msg : String)
  | indexErr (msg : String)
  | synErr (msg : String)

/-- Message text of an exception, modelling Python's `str(e)`. -/
def pyErrMsg : PyErr → String
  | PyErr.typeErr m => m
  | PyErr.valueErr m => m
  | PyErr.indexErr m => m
  | PyErr.synErr m => m

/-- The dictionary `{"completion": ..., "suggestions": [...]}` returned by
`find_max_length`. -/
structure RankedOut where
  completion : PyVal
  suggestions : List PyVal

/-- The `data` entry of the dictionary returned by `fit`: on `completed` it
holds `{"completion": output, "suggestions": []}`, on `incomplete` it holds
`{"suggestions": completions}` (where `completions` is the dictionary built
by `find_max_length`), and on `failed` it holds `{"error_message": str(e)}`. -/
inductive FitData where
  | completed (completion : PyVal) (suggestions : List PyVal)
  | incomplete (suggestions : RankedOut)
  | failed (error_message : String)

/-- The dictionary returned by `fit`, with keys `status`, `object_type` and
`data`.  `object_type` models `type(output)` by the Python type's name. -/
structure FitResult where
  status : String
  object_type : Option String
  data : FitData

/-- Name of the Python runtime type of a value, modelling `type(output)`. -/
def pyTypeName : PyVal → String
  | PyVal.none => "NoneType"
  | PyVal.bool _ => "bool"
  | PyVal.int _ => "int"
  | PyVal.str _ => "str"
  | PyVal.list _ => "list"
  | PyVal.dict _ => "dict"

/-- The single-quote character, written via its code point. -/
def squote : Char := Char.ofNat 39

/-- Whitespace characters recognised by Python's `str.strip`, by the regex
class `\s` (ASCII portion) and by the literal parsers. -/
def pyWs (c : Char) : Bool :=
  c == ' ' || c == '\t' || c == '\n' || c == '\r' || c == '\x0b' || c == '\x0c'

/-- Drop leading whitespace from a character list. -/
def skipWs : List Char → List Char
  | [] => []
  | c :: cs => if pyWs c then skipWs cs else c :: cs

/-- Numeric value of a decimal digit character. -/
def digitVal (c : Char) : Nat := c.toNat - 48

/-- Decimal digit character for a value below ten. -/
def digitChar (n : Nat) : Char := Char.ofNat (48 + n)

/-- Split a character list into its maximal leading run of decimal digits and
the remainder. -/
def takeDigits : List Char → List Char × List Char
  | [] => ([], [])
  | c :: cs =>
    if c.isDigit then
      let p := takeDigits cs
      (c :: p.1, p.2)
    else ([], c :: cs)

/-- Fold a digit run into the natural number it denotes. -/
def digitsToNat (acc : Nat) : List Char → Nat
  | [] => acc
  | c :: cs => digitsToNat (acc * 10 + digitVal c) cs

/-- Decimal digit characters of a natural number, most significant first;
fuel-indexed so that the recursion is structural (any fuel above the number
itself is sufficient). -/
def natCharsAux : Nat → Nat → List Char
  | 0, _ => []
  | fuel + 1, n =>
    if n < 10 then [digitChar n] else natCharsAux fuel (n / 10) ++ [digitChar (n % 10)]

/-- Decimal digit characters of a natural number. -/
def natChars (n : Nat) : List Char := natCharsAux (n + 1) n

/-- Decimal rendering of an integer, as Python's `repr`/`json.dumps` print
it. -/
def intChars : Int → List Char
  | Int.ofNat n => natChars n
  | Int.negSucc m => '-' :: natChars (m + 1)

/-- Resolve a backslash escape inside a string literal, covering the escapes
emitted by `json.dumps` and the standard short escapes understood by both the
JSON and the Python literal grammar (unsupported escapes make the enclosing
parse fail; none occur in the module's contract). -/
def unescape (e : Char) : Option Char :=
  if e = '"' then some '"'
  else if e = squote then some squote
  else if e = '\\' then some '\\'
  else if e = '/' then some '/'
  else if e = 'n' then some '\n'
  else if e = 't' then some '\t'
  else if e = 'r' then some '\r'
  else if e = 'b' then some '\x08'
  else if e = 'f' then some '\x0c'
  else Option.none

mutual
/-- Parse the body of a string literal delimited by the quote `q`, consuming
the closing quote; returns the decoded characters and the remaining input. -/
def parseStrBody (q : Char) : List Char → Option (List Char × List Char)
  | [] => Option.none
  | c :: cs =>
    if c = q then some ([], cs)
    else if c = '\\' then parseStrEsc q cs
    else
      match parseStrBody q cs with
      | some p => some (c :: p.1, p.2)
      | Option.none => Option.none

/-- Continue a string-literal parse right after a backslash. -/
def parseStrEsc (q : Char) : List Char → Option (List Char × List Char)
  | [] => Option.none
  | e :: cs2 =>
    match unescape e with
    | some u =>
      match parseStrBody q cs2 with
      | some p => some (u :: p.1, p.2)
      | Option.none => Option.none
    | Option.none => Option.none
end

mutual
/-- Recursive-descent parser for JSON values, modelling `json.loads` on the
fragment this module exercises: objects with double-quoted string keys,
arrays, double-quoted strings, integers, `true`/`false`/`null`, with
insignificant whitespace.  (Floats, exponents and the leading-zero
restriction of the JSON number grammar are outside the modelled fragment.)
The fuel only bounds the descent depth; one more than the input length is
always sufficient. -/
def jsonParseVal : Nat → List Char → Option (PyVal × List Char)
  | 0, _ => Option.none
  | fuel + 1, cs =>
    match skipWs cs with
    | [] => Option.none
    | c :: rest =>
      if c.isDigit then
        let p := takeDigits (c :: rest)
        some (PyVal.int (Int.ofNat (digitsToNat 0 p.1)), p.2)
      else if c = '-' then
        match takeDigits rest with
        | ([], _) => Option.none
        | (ds, r) => some (PyVal.int (-(Int.ofNat (digitsToNat 0 ds))), r)
      else if c = '"' then
        match parseStrBody '"' rest with
        | some p => some (PyVal.str (String.mk p.1), p.2)
        | Option.none => Option.none
      else if c = '{' then
        match skipWs rest with
        | [] => Option.none
        | d :: rest2 =>
          if d = '}' then some (PyVal.dict [], rest2)
          else
            match jsonParseMembers fuel (d :: rest2) with
            | some p => some (PyVal.dict p.1, p.2)
            | Option.none => Option.none
      else if c = '[' then
        match skipWs rest with
        | [] => Option.none
        | d :: rest2 =>
          if d = ']' then some (PyVal.list [], rest2)
          else
            match jsonParseItems fuel (d :: rest2) with
            | some p => some (PyVal.list p.1, p.2)
            | Option.none => Option.none
      else if c = 't' then
        match rest with
        | 'r' :: 'u' :: 'e' :: r => some (PyVal.bool true, r)
        | _ => Option.none
      else if c = 'f' then
        match rest with
        | 'a' :: 'l' :: 's' :: 'e' :: r => some (PyVal.bool false, r)
        | _ => Option.none
      else if c = 'n' then
        match rest with
        | 'u' :: 'l' :: 'l' :: r => some (PyVal.none, r)
        | _ => Option.none
      else Option.none

def jsonParseMembers : Nat → List Char → Option (List (String × PyVal) × List Char)
  | 0, _ => Option.none
  | fuel + 1, cs =>
    match skipWs cs with
    | '"' :: rest =>
      match parseStrBody '"' rest with
      | some kp =>
        match skipWs kp.2 with
        | ':' :: r2 =>
          match jsonParseVal fuel r2 with
          | some vp =>
            match skipWs vp.2 with
            | ',' :: r4 =>
              match jsonParseMembers fuel r4 with
              | some mp => some ((String.mk kp.1, vp.1) :: mp.1, mp.2)
              | Option.none => Option.none
            | '}' :: r4 => some ([(String.mk kp.1, vp.1)], r4)
            | _ => Option.none
          | Option.none => Option.none
        | _ => Option.none
      | Option.none => Option.none
    | _ => Option.none

def jsonParseItems : Nat → List Char → Option (List PyVal × List Char)
  | 0, _ => Option.none
  | fuel + 1, cs =>
    match jsonParseVal fuel cs with
    | some vp =>
      match skipWs vp.2 with
      | ',' :: r2 =>
        match jsonParseItems fuel r2 with
        | some ip => some (vp.1 :: ip.1, ip.2)
        | Option.none => Option.none
      | ']' :: r2 => some ([vp.1], r2)
      | _ => Option.none
    | Option.none => Option.none
end

/-- Model of `json.loads`: parse a complete JSON value, demanding that only
whitespace remains; `Option.none` models a raised `json.JSONDecodeError`. -/
def jsonLoads (s : String) : Option PyVal :=
  match jsonParseVal (s.data.length + 1) s.data with
  | some p => if skipWs p.2 = [] then some p.1 else Option.none
  | Option.none => Option.none

mutual
/-- Recursive-descent parser for Python literal expressions, modelling the
grammar `eval` and `ast.literal_eval` accept on the fragment this module
exercises: dicts with single- or double-quoted string keys, lists, strings in
either quote style, integers, and `True`/`False`/`None`.  (Python trailing
commas, non-string dict keys, floats and general expressions other than the
top-level integer addition handled by `pyAddChain` are outside the modelled
fragment; no input in the module's contract uses them.)  The fuel only
bounds the descent depth; one more than the input length is always
sufficient. -/
def pyParseVal : Nat → List Char → Option (PyVal × List Char)
  | 0, _ => Option.none
  | fuel + 1, cs =>
    match skipWs cs with
    | [] => Option.none
    | c :: rest =>
      if c.isDigit then
        let p := takeDigits (c :: rest)
        some (PyVal.int (Int.ofNat (digitsToNat 0 p.1)), p.2)
      else if c = '-' then
        match takeDigits rest with
        | ([], _) => Option.none
        | (ds, r) => some (PyVal.int (-(Int.ofNat (digitsToNat 0 ds))), r)
      else if c = '"' || c = squote then
        match parseStrBody c rest with
        | some p => some (PyVal.str (String.mk p.1), p.2)
        | Option.none => Option.none
      else if c = '{' then
        match skipWs rest with
        | [] => Option.none
        | d :: rest2 =>
          if d = '}' then some (PyVal.dict [], rest2)
          else
            match pyParseMembers fuel (d :: rest2) with
            | some p => some (PyVal.dict p.1, p.2)
            | Option.none => Option.none
      else if c = '[' then
        match skipWs rest with
        | [] => Option.none
        | d :: rest2 =>
          if d = ']' then some (PyVal.list [], rest2)
          else
            match pyParseItems fuel (d :: rest2) with
            | some p => some (PyVal.list p.1, p.2)
            | Option.none => Option.none
      else if c = 'T' then
        match rest with
        | 'r' :: 'u' :: 'e' :: r => some (PyVal.bool true, r)
        | _ => Option.none
      else if c = 'F' then
        match rest with
        | 'a' :: 'l' :: 's' :: 'e' :: r => some (PyVal.bool false, r)
        | _ => Option.none
      else if c = 'N' then
        match rest with
        | 'o' :: 'n' :: 'e' :: r => some (PyVal.none, r)
        | _ => Option.none
      else Option.none

def pyParseMembers : Nat → List Char → Option (List (String × PyVal) × List Char)
  | 0, _ => Option.none
  | fuel + 1, cs =>
    match skipWs cs with
    | [] => Option.none
    | q :: rest =>
      if q = '"' || q = squote then
        match parseStrBody q rest with
        | some kp =>
          match skipWs kp.2 with
          | ':' :: r2 =>
            match pyParseVal fuel r2 with
            | some vp =>
              match skipWs vp.2 with
              | ',' :: r4 =>
                match pyParseMembers fuel r4 with
                | some mp => some ((String.mk kp.1, vp.1) :: mp.1, mp.2)
                | Option.none => Option.none
              | '}' :: r4 => some ([(String.mk kp.1, vp.1)], r4)
              | _ => Option.none
            | Option.none => Option.none
          | _ => Option.none
        | Option.none => Option.none
      else Option.none

def pyParseItems : Nat → List Char → Option (List PyVal × List Char)
  | 0, _ => Option.none
  | fuel + 1, cs =>
    match pyParseVal fuel cs with
    | some vp =>
      match skipWs vp.2 with
      | ',' :: r2 =>
        match pyParseItems fuel r2 with
        | some ip => some (vp.1 :: ip.1, ip.2)
        | Option.none => Option.none
      | ']' :: r2 => some ([vp.1], r2)
      | _ => Option.none
    | Option.none => Option.none
end

/-- Chain of `+` operators after a parsed value, modelling Python integer
addition inside `eval` (the only arithmetic the module's contract
exercises). -/
def pyAddChain : Nat → PyVal → List Char → Option (PyVal × List Char)
  | 0, _, _ => Option.none
  | fuel + 1, acc, cs =>
    match skipWs cs with
    | '+' :: rest =>
      match pyParseVal fuel rest with
      | some (PyVal.int m, r2) =>
        match acc with
        | PyVal.int a => pyAddChain fuel (PyVal.int (a + m)) r2
        | _ => Option.none
      | _ => Option.none
    | other => some (acc, other)

/-- Model of Python's `eval` on the literal-expression fragment: parse one
value, then any chain of integer additions, demanding that only whitespace
remains.  `Except.error` models the `SyntaxError`/`NameError` Python raises
on input outside the grammar (for example JSON's `null`/`true`, which are
unbound names in Python). -/
def pyEval (s : String) : Except PyErr PyVal :=
  match pyParseVal (s.data.length + 1) s.data with
  | some vp =>
    match pyAddChain (s.data.length + 1) vp.1 vp.2 with
    | some wp =>
      if wp.2 = [] then Except.ok wp.1
      else Except.error (PyErr.synErr "invalid syntax")
    | Option.none => Except.error (PyErr.synErr "invalid syntax")
  | Option.none => Except.error (PyErr.synErr "invalid syntax")

/-- Model of `ast.literal_eval`: a single Python literal with nothing but
whitespace around it; no operators are accepted. -/
def ast_literal_eval (s : String) : Option PyVal :=
  match pyParseVal (s.data.length + 1) s.data with
  | some p => if skipWs p.2 = [] then some p.1 else Option.none
  | Option.none => Option.none

/-- Escape one character as `json.dumps` renders string contents: quote,
backslash and the common control characters get two-character escapes, all
other characters are emitted verbatim.  (The `\uXXXX` escapes `json.dumps`
produces for other control or non-ASCII characters are outside the modelled
fragment.) -/
def escChar (c : Char) : List Char :=
  if c = '"' then ['\\', '"']
  else if c = '\\' then ['\\', '\\']
  else if c = '\n' then ['\\', 'n']
  else if c = '\t' then ['\\', 't']
  else if c = '\r' then ['\\', 'r']
  else if c = '\x08' then ['\\', 'b']
  else if c = '\x0c' then ['\\', 'f']
  else [c]

/-- Escape every character of a string body. -/
def escStr : List Char → List Char
  | [] => []
  | c :: cs => escChar c ++ escStr cs

mutual
/-- Modelled from the spec: the canonical rendering `render(v)` of a
well-formed literal (the source has no serializer; the spec's `render` is
`json.dumps` with its default separators, which the claims compose with
`fit`). -/
def renderChars : PyVal → List Char
  | PyVal.none => ['n', 'u', 'l', 'l']
  | PyVal.bool true => ['t', 'r', 'u', 'e']
  | PyVal.bool false => ['f', 'a', 'l', 's', 'e']
  | PyVal.int n => intChars n
  | PyVal.str s => '"' :: (escStr s.data ++ ['"'])
  | PyVal.list xs => '[' :: (renderList xs ++ [']'])
  | PyVal.dict kvs => '{' :: (renderDict kvs ++ ['}'])

/-- Comma-separated renderings of list elements. -/
def renderList : List PyVal → List Char
  | [] => []
  | [x] => renderChars x
  | x :: y :: xs => renderChars x ++ [',', ' '] ++ renderList (y :: xs)

/-- Comma-separated renderings of dict entries. -/
def renderDict : List (String × PyVal) → List Char
  | [] => []
  | [kv] => '"' :: (escStr kv.1.data ++ ['"', ':', ' ']) ++ renderChars kv.2
  | kv :: e :: kvs =>
    '"' :: (escStr kv.1.data ++ ['"', ':', ' ']) ++ renderChars kv.2 ++ [',', ' '] ++ renderDict (e :: kvs)
end

/-- Full rendering of a literal as a string. -/
def render (v : PyVal) : String := String.mk (renderChars v)

mutual
/-- Model of Python's `repr` on the values this module produces (used through
`str(element)` in `find_max_length`): `None`/`True`/`False`, decimal
integers, single-quoted strings (string-content escaping is outside the
modelled fragment), and bracketed containers with `', '` and `': '`
separators. -/
def pyRepr : PyVal → List Char
  | PyVal.none => ['N', 'o', 'n', 'e']
  | PyVal.bool true => ['T', 'r', 'u', 'e']
  | PyVal.bool false => ['F', 'a', 'l', 's', 'e']
  | PyVal.int n => intChars n
  | PyVal.str s => squote :: (s.data ++ [squote])
  | PyVal.list xs => '[' :: (pyReprList xs ++ [']'])
  | PyVal.dict kvs => '{' :: (pyReprDict kvs ++ ['}'])

/-- Comma-separated `repr`s of list elements. -/
def pyReprList : List PyVal → List Char
  | [] => []
  | [x] => pyRepr x
  | x :: y :: xs => pyRepr x ++ [',', ' '] ++ pyReprList (y :: xs)

/-- Comma-separated `repr`s of dict entries. -/
def pyReprDict : List (String × PyVal) → List Char
  | [] => []
  | [kv] => squote :: (kv.1.data ++ [squote, ':', ' ']) ++ pyRepr kv.2
  | kv :: e :: kvs =>
    squote :: (kv.1.data ++ [squote, ':', ' ']) ++ pyRepr kv.2 ++ [',', ' '] ++ pyReprDict (e :: kvs)
end

/-- Model of Python's `str` applied to a parsed value: the string itself for
a `str`, the `repr` otherwise. -/
def pyStr : PyVal → String
  | PyVal.str s => s
  | v => String.mk (pyRepr v)

mutual
/-- Values whose canonical rendering is also a valid Python expression:
literals built from objects, arrays, strings and numbers, with no boolean or
null anywhere (JSON renders those as `true`/`false`/`null`, which are
unbound names for Python's `eval`). -/
def pyClean : PyVal → Bool
  | PyVal.none => false
  | PyVal.bool _ => false
  | PyVal.int _ => true
  | PyVal.str _ => true
  | PyVal.list xs => pyCleanList xs
  | PyVal.dict kvs => pyCleanDict kvs

/-- Every element is clean. -/
def pyCleanList : List PyVal → Bool
  | [] => true
  | x :: xs => pyClean x && pyCleanList xs

/-- Every entry value is clean. -/
def pyCleanDict : List (String × PyVal) → Bool
  | [] => true
  | kv :: kvs => pyClean kv.2 && pyCleanDict kvs
end

/-- Translation of `Parser.is_valid_json`: `json.loads` succeeds or the
`ValueError` is caught and `False` returned. -/
def is_valid_json (input_str : String) : Bool :=
  (jsonLoads input_str).isSome

/-- Model of `itertools.product(candidate_marks, repeat=i)`: all tuples of
the given length, ordered with the leftmost position most significant,
following the iteration order of `itertools.product`. -/
def itertoolsProduct (candidate_marks : List String) : Nat → List (List String)
  | 0 => [[]]
  | i + 1 => candidate_marks.flatMap fun x => (itertoolsProduct candidate_marks i).map fun t => x :: t

/-- The `continue` guard in `get_combinations`: skip a combination when an
end mark is required and the combination's last mark differs from it. -/
def skipComb : Option String → List String → Bool
  | Option.none, _ => false
  | Option.some m, comb => comb.getLast? != Option.some m

/-- Translation of `Parser.get_combinations`: for each length `1..n`, iterate
the Cartesian power of `candidate_marks`, skip combinations whose last mark
differs from `should_end_mark` (when one is required), and append the
concatenation of the survivors in iteration order. -/
def get_combinations (candidate_marks : List String) (n : Nat)
    (should_end_mark : Option String) : List String :=
  (List.range' 1 n).foldl
    (fun combinations i =>
      (itertoolsProduct candidate_marks i).foldl
        (fun combs comb =>
          if skipComb should_end_mark comb then combs
          else combs ++ [String.join comb])
        combinations)
    []

/-- The `while True` loop of `complete_json_object`: raise `ValueError` when
the text is exhausted, otherwise try `json.loads(json_str + completion_str)`
and on `JSONDecodeError` drop the last character and retry.  The fuel is the
initial text length, which the truncation can never outrun (the spare
`0, _ :: _` branch is unreachable from `complete_json_object` and carries the
same failure value). -/
def completeLoop (completion_str : String) : Nat → List Char → Except PyErr PyVal
  | _, [] => Except.error (PyErr.valueErr "Couldn't fix JSON")
  | 0, _ :: _ => Except.error (PyErr.valueErr "Couldn't fix JSON")
  | fuel + 1, c :: cs =>
    match jsonLoads (String.mk (c :: cs) ++ completion_str) with
    | some python_obj => Except.ok python_obj
    | Option.none => completeLoop completion_str fuel (c :: cs).dropLast

/-- Translation of `Parser.complete_json_object` (as the two-parameter
function the `def` statement creates, the subject of the spec's
`TruncatingCompleter`). -/
def complete_json_object (json_str : String) (completion_str : String) : Except PyErr PyVal :=
  completeLoop completion_str json_str.data.length json_str.data

/-- Number of `json.loads` attempts `complete_json_object` performs before
returning or raising. -/
def completeAttemptsLoop (completion_str : String) : Nat → List Char → Nat
  | _, [] => 0
  | 0, _ :: _ => 0
  | fuel + 1, c :: cs =>
    match jsonLoads (String.mk (c :: cs) ++ completion_str) with
    | some _ => 1
    | Option.none => 1 + completeAttemptsLoop completion_str fuel (c :: cs).dropLast

/-- Parse attempts performed by `complete_json_object` on the given input. -/
def complete_json_attempts (json_str : String) (completion_str : String) : Nat :=
  completeAttemptsLoop completion_str json_str.data.length json_str.data

/-- Ordering key used by `find_max_length`: `len(str(element))`. -/
def strLen (v : PyVal) : Nat := (pyStr v).length

/-- The comparison under `sorted(data_list, key=lambda e: len(str(e)),
reverse=True)`: earlier elements must have a key at least as large. -/
def descLe (a b : PyVal) : Prop := strLen b ≤ strLen a

instance : DecidableRel descLe := fun a b => Nat.decLe (strLen b) (strLen a)

instance : IsTotal PyVal descLe := ⟨fun a b => Nat.le_total (strLen b) (strLen a)⟩

instance : IsTrans PyVal descLe := ⟨fun _ _ _ h1 h2 => Nat.le_trans h2 h1⟩

/-- Translation of `Parser.find_max_length` (as the one-parameter function
the `def` statement creates).  `max` over an empty generator raises
`ValueError`; `next` over an exhausted generator would raise
`StopIteration`, an unreachable branch kept for faithfulness.  Python's
`sorted` is a stable sort; it is modelled by insertion sort with the
reflexive descending comparison, which computes the same list. -/
def find_max_length (data_list : List PyVal) : Except PyErr RankedOut :=
  match data_list.map strLen with
  | [] => Except.error (PyErr.valueErr "max() arg is an empty sequence")
  | L :: Ls =>
    let max_length := Ls.foldl max L
    match data_list.find? fun element => strLen element == max_length with
    | some completion =>
      Except.ok ⟨completion, data_list.insertionSort descLe⟩
    | Option.none => Except.error (PyErr.valueErr "StopIteration")

/-- The call site `self.complete_json_object(json_str, completion_str)`:
`complete_json_object` is defined without `self`, so the bound-method call
supplies three arguments to a two-parameter function and raises `TypeError`
before any completion is attempted. -/
def boundCall_complete_json_object (_json_str : String) (_completion_str : String) :
    Except PyErr PyVal :=
  Except.error
    (PyErr.typeErr "complete_json_object() takes 2 positional arguments but 3 were given")

/-- The call site `self.find_max_length(completions)`: `find_max_length` is
defined without `self`, so the bound-method call supplies two arguments to a
one-parameter function and raises `TypeError`. -/
def boundCall_find_max_length (_data_list : List PyVal) : Except PyErr RankedOut :=
  Except.error (PyErr.typeErr "find_max_length() takes 1 positional argument but 2 were given")

/-- The candidate-mark selection at the head of `get_possible_completions`:
start from `['}', ']']`, remove `']'` when `'['` does not occur in the text,
then remove `'}'` when `'{'` does not occur. -/
def candidate_marks (json_str : String) : List String :=
  let marks : List String := ["\x7d", "]"]
  let marks := if json_str.data.contains '[' then marks else marks.erase "]"
  if json_str.data.contains '{' then marks else marks.erase "\x7d"

/-- Model of Python's `str.strip()`: drop whitespace from both ends. -/
def pyStripBoth (s : String) : String :=
  String.mk (((s.data.dropWhile pyWs).reverse.dropWhile pyWs).reverse)

/-- Translation of `Parser.get_possible_completions`: select candidate marks,
compute the required final mark from the first character of the stripped
text (`IndexError` when it is empty), try every generated combination
through the bound call to `complete_json_object` — whose `TypeError` the
`except Exception: pass` swallows — and hand the collected completions to
the bound call to `find_max_length`, whose `TypeError` propagates. -/
def get_possible_completions (json_str : String) (max_completion_length : Nat) :
    Except PyErr RankedOut :=
  let marks := candidate_marks json_str
  match (pyStripBoth json_str).data with
  | [] => Except.error (PyErr.indexErr "string index out of range")
  | c :: _ =>
    let should_end_mark : String := if c = '[' then "]" else "\x7d"
    let completions : List PyVal :=
      (get_combinations marks max_completion_length (Option.some should_end_mark)).foldl
        (fun acc completion_str =>
          match boundCall_complete_json_object json_str completion_str with
          | Except.ok completed_obj => acc ++ [completed_obj]
          | Except.error _ => acc)
        []
    boundCall_find_max_length completions

/-- The character class of `re.sub(r'[\[\]\{\}\s]+$', '', json_str)`:
brackets, braces and whitespace. -/
def isJunk (c : Char) : Bool :=
  c == '[' || c == ']' || c == '{' || c == '}' || pyWs c

/-- The substitution `re.sub(r'[\[\]\{\}\s]+$', '', json_str)` in `fit`:
remove the maximal trailing run of brackets, braces and whitespace. -/
def stripTrailingJunk (s : String) : String :=
  String.mk ((s.data.reverse.dropWhile isJunk).reverse)

/-- Translation of `Parser.fit`: evaluate the input with `eval` and report
`completed`; on any exception, strip trailing bracket noise and run
`get_possible_completions`, reporting `incomplete` on success and `failed`
with the exception text otherwise.  The outer `Except` layer records
whether `fit` itself raises; both branches return `Except.ok`, mirroring the
source's `try`/`except Exception` structure. -/
def fit (json_str : String) (max_completion_length : Nat) : Except PyErr FitResult :=
  match pyEval json_str with
  | Except.ok output =>
    Except.ok ⟨"completed", Option.some (pyTypeName output), FitData.completed output []⟩
  | Except.error _ =>
    match get_possible_completions (stripTrailingJunk json_str) max_completion_length with
    | Except.ok completions =>
      Except.ok ⟨"incomplete", Option.none, FitData.incomplete completions⟩
    | Except.error e =>
      Except.ok ⟨"failed", Option.none, FitData.failed (pyErrMsg e)⟩

/-- Index and identity of the first occurrence of either of two characters,
modelling the way the regex classes `[^][]*?` / `[^{}]*` bound a candidate
span: the lazy or greedy run cannot cross either bracket of its family. -/
def findBracket (a b : Char) : List Char → Option (Nat × Char)
  | [] => Option.none
  | c :: cs =>
    if c = a || c = b then some (0, c)
    else
      match findBracket a b cs with
      | some p => some (p.1 + 1, p.2)
      | Option.none => Option.none

/-- Attempt to match the `object_regex`
`(?<!\\)(\[[^][]*?(?<!\\)\]|\{[^{}]*\})` at the current position, given the
preceding character (for the leading lookbehind).  A `[` span requires the
next square bracket to be an unescaped `]`; a `{` span requires the next
curly bracket to be `}`.  Returns the match length and the matched text. -/
def tryMatchAt (prev : Option Char) (cs : List Char) : Option (Nat × List Char) :=
  if prev = Option.some '\\' then Option.none
  else
    match cs with
    | '[' :: tail =>
      (match findBracket '[' ']' tail with
       | some (j, d) =>
         if d = ']' && (if j = 0 then '[' else tail.getD (j - 1) ' ') != '\\' then
           some (j + 2, '[' :: tail.take (j + 1))
         else Option.none
       | Option.none => Option.none)
    | '{' :: tail =>
      (match findBracket '{' '}' tail with
       | some (j, d) =>
         if d = '}' then some (j + 2, '{' :: tail.take (j + 1)) else Option.none
       | Option.none => Option.none)
    | _ => Option.none

/-- Model of `re.finditer(object_regex, string)`: scan left to right,
emitting non-overlapping matches as `(start, end, text)` triples and
resuming after each match.  The fuel is the input length; every step
consumes at least one character, so it never runs out before the input
does. -/
def finditerAux : Nat → Option Char → Nat → List Char → List (Nat × Nat × List Char)
  | 0, _, _, _ => []
  | fuel + 1, prev, pos, cs =>
    match cs with
    | [] => []
    | c :: tail =>
      match tryMatchAt prev cs with
      | some (len, g) =>
        (pos, pos + len, g) :: finditerAux fuel g.getLast? (pos + len) (cs.drop len)
      | Option.none => finditerAux fuel (Option.some c) (pos + 1) tail

/-- All regex matches over a string, with positions. -/
def finditer (s : List Char) : List (Nat × Nat × List Char) :=
  finditerAux s.length Option.none 0 s

/-- Loop state of the scanner in `extract_complete_objects`: collected
top-level spans, the two opening counters `opening["{"]`/`opening["["]`, the
pending-match stack, and the start offset of the current window. -/
structure ExtState where
  object_strings : List (List Char)
  openC : Nat
  openS : Nat
  stack : List (List Char)
  start : Nat

/-- One iteration of the `for match in re.finditer(...)` loop in
`extract_complete_objects`, for the match triple `(ms, me, g)` over the
original text `s`: record the window start if the stack was empty, push the
match, and when the match closes a bracket, bump that bracket's counter and
emit `string[start:match.end()]`, resetting the state, once the counter
equals the number of non-zero counters. -/
def extractStep (s : List Char) (st : ExtState) (m : Nat × Nat × List Char) : ExtState :=
  let ms := m.1
  let me := m.2.1
  let g := m.2.2
  let start := if st.stack.isEmpty then ms else st.start
  let stack := st.stack ++ [g]
  match g.getLast? with
  | some c =>
    if c = '}' || c = ']' then
      let openC := if c = '}' then st.openC + 1 else st.openC
      let openS := if c = ']' then st.openS + 1 else st.openS
      let nonzero := (if openC ≠ 0 then 1 else 0) + (if openS ≠ 0 then 1 else 0)
      let cnt := if c = '}' then openC else openS
      if cnt = nonzero then
        ⟨st.object_strings ++ [(s.drop start).take (me - start)], 0, 0, [], start⟩
      else ⟨st.object_strings, openC, openS, stack, start⟩
    else ⟨st.object_strings, st.openC, st.openS, stack, start⟩
  | Option.none => ⟨st.object_strings, st.openC, st.openS, stack, start⟩

/-- The full scanner loop of `extract_complete_objects`. -/
def extractScan (s : List Char) : ExtState :=
  (finditer s).foldl (extractStep s) ⟨[], 0, 0, [], 0⟩

/-- Translation of `Parser.extract_complete_objects`.  The returned pair
carries the Python return value first and, second, the diagnostics the
function only prints: the incomplete-trailing-object notice (emitted iff the
scanner's stack is non-empty at the end) followed by one notice per span
`ast.literal_eval` rejects.  Diagnostics are never part of the returned
data. -/
def extract_complete_objects (string : String) : List PyVal × List String :=
  let st := extractScan string.data
  let diag0 : List String :=
    if st.stack.isEmpty then [] else ["Error: Incomplete object at end of string"]
  st.object_strings.foldl
    (fun acc object_string =>
      match ast_literal_eval (String.mk object_string) with
      | some obj => (acc.1 ++ [obj], acc.2)
      | Option.none => (acc.1, acc.2 ++ ["Error evaluating object string"]))
    ([], diag0)

theorem gpc_always_err (s : String) (n : Nat) :
    ∃ e, get_possible_completions s n = Except.error e := by
  rcases h : (pyStripBoth s).data with _ | ⟨c, rest⟩
  · exact ⟨PyErr.indexErr "string index out of range", by
      simp [get_possible_completions, h]⟩
  · exact ⟨PyErr.typeErr "find_max_length() takes 1 positional argument but 2 were given", by
      simp [get_possible_completions, h, boundCall_find_max_length]⟩

/-- C9: for every input string `fit` never raises past its own boundary:
it always returns a result dictionary, every failure path ending in the
`failed` state carrying the error message, never an unhandled exception. -/
theorem c9_fit_never_raises (s : String) (n : Nat) :
    ∃ r : FitResult, fit s n = Except.ok r ∧
      (r.status = "failed" → ∃ msg, r.data = FitData.failed msg) := by
  unfold fit
  cases hev : pyEval s with
  | ok output => exact ⟨_, rfl, by intro h; simp_all⟩
  | error e =>
    cases hg : get_possible_completions (stripTrailingJunk s) n with
    | ok completions => exact ⟨_, rfl, by intro h; simp_all⟩
    | error e2 => exact ⟨_, rfl, fun _ => ⟨pyErrMsg e2, rfl⟩⟩

/-- C2: for every input string the result of `fit` has status `completed` or
`failed`, never `incomplete`: whenever the initial evaluation fails,
`get_possible_completions` raises (the bound-method calls to the
`self`-less `complete_json_object` and `find_max_length` raise `TypeError`)
and `fit` converts the exception into the `failed` result. -/
theorem c2_fit_never_incomplete (s : String) (n : Nat) :
    ∃ r : FitResult, fit s n = Except.ok r ∧
      (r.status = "completed" ∨ r.status = "failed") := by
  unfold fit
  cases hev : pyEval s with
  | ok output => exact ⟨_, rfl, Or.inl rfl⟩
  | error e =>
    obtain ⟨e2, he2⟩ := gpc_always_err (stripTrailingJunk s) n
    rw [he2]
    exact ⟨_, rfl, Or.inr rfl⟩

/-- C7: for text containing `'{'` but not `'['` the selected candidate-mark
set is exactly `["}"]`; for text containing neither bracket the set is
empty, and the completion pipeline (`get_possible_completions`) on such text
always ends in an exception — surfaced by `fit` as the `failed` outcome —
and never in ranked suggestions. -/
theorem c7_candidate_marks (s t : String) (n : Nat)
    (hs1 : s.data.contains '{' = true) (hs2 : s.data.contains '[' = false)
    (ht1 : t.data.contains '{' = false) (ht2 : t.data.contains '[' = false) :
    candidate_marks s = ["\x7d"] ∧ candidate_marks t = [] ∧
      ∃ e, get_possible_completions t n = Except.error e := by
  refine ⟨?_, ?_, gpc_always_err t n⟩
  · simp only [candidate_marks, hs1, hs2, if_true, if_false]
    rfl
  · simp only [candidate_marks, ht1, ht2, if_false]
    rfl

theorem c7_candidate_marks_witness :
    candidate_marks "x\x7by" = ["\x7d"] ∧ candidate_marks "xy" = [] ∧
      ∃ e, get_possible_completions "xy" 5 = Except.error e :=
  c7_candidate_marks "x\x7by" "xy" 5 (by decide) (by decide) (by decide) (by decide)

/-- C1: the spec's end-to-end example is broken by the missing-`self` bug:
`fit('{"a": 1, "b": 2')` does not return the `incomplete` outcome with
ranked suggestions, but the `failed` outcome carrying the `TypeError` from
the bound call to `find_max_length`; the second half of the example does
hold: `fit('{"a": 1, "b": 2}')` returns `completed` with the dictionary
`{"a": 1, "b": 2}`. -/
theorem c1_fit_end_to_end :
    fit "\x7b\"a\": 1, \"b\": 2" 5 =
      Except.ok ⟨"failed", Option.none,
        FitData.failed "find_max_length() takes 1 positional argument but 2 were given"⟩ ∧
    fit "\x7b\"a\": 1, \"b\": 2\x7d" 5 =
      Except.ok ⟨"completed", Option.some "dict",
        FitData.completed (PyVal.dict [("a", PyVal.int 1), ("b", PyVal.int 2)]) []⟩ :=
  ⟨rfl, rfl⟩

/-- C10: there are input strings that are not valid JSON on which `fit`
still reports `completed`, because the initial check evaluates the input as
a general Python expression rather than parsing it as JSON: a dict literal
with single-quoted keys and the arithmetic expression `1+1` both succeed. -/
theorem c10_eval_accepts_non_json :
    is_valid_json ("\x7b" ++ squote.toString ++ "a" ++ squote.toString ++ ": 1\x7d") = false ∧
    fit ("\x7b" ++ squote.toString ++ "a" ++ squote.toString ++ ": 1\x7d") 5 =
      Except.ok ⟨"completed", Option.some "dict",
        FitData.completed (PyVal.dict [("a", PyVal.int 1)]) []⟩ ∧
    is_valid_json "1+1" = false ∧
    fit "1+1" 5 =
      Except.ok ⟨"completed", Option.some "int", FitData.completed (PyVal.int 2) []⟩ :=
  ⟨rfl, rfl, rfl, rfl⟩

theorem c8_no_dangling_diagnostic_counterexample :
    extract_complete_objects "\x7b\"a\":1" = ([], []) := rfl

/-- C8 (amended): `extract_complete_objects('{"a":1}{"b":2}')` returns the
two dictionaries in left-to-right order of appearance with no diagnostics;
`extract_complete_objects('{"a":1')` returns the empty list, and the
dangling `'{'` span is never included in the returned data — but no
diagnostic is emitted for it either, because the unclosed brace never
matches the scanner's regex and so never enters the pending stack that
triggers the incomplete-object notice. -/
theorem c8_extract_simple_cases :
    extract_complete_objects "\x7b\"a\":1\x7d\x7b\"b\":2\x7d" =
      ([PyVal.dict [("a", PyVal.int 1)], PyVal.dict [("b", PyVal.int 2)]], []) ∧
    extract_complete_objects "\x7b\"a\":1" = ([], []) :=
  ⟨rfl, rfl⟩

theorem foldl_filter_append (p : List String → Bool) (j : List String → String) :
    ∀ (l : List (List String)) (acc : List String),
      l.foldl (fun combs comb => if p comb then combs else combs ++ [j comb]) acc =
        acc ++ (l.filter fun c => !p c).map j := by
  intro l
  induction l with
  | nil => intro acc; simp
  | cons x xs ih =>
    intro acc
    by_cases hx : p x <;> simp [List.foldl_cons, hx, ih]

theorem get_combinations_eq_flatMap (marks : List String) (sem : Option String) :
    ∀ (l : List Nat) (acc : List String),
      l.foldl
        (fun combinations i =>
          (itertoolsProduct marks i).foldl
            (fun combs comb =>
              if skipComb sem comb then combs else combs ++ [String.join comb])
            combinations)
        acc =
      acc ++ l.flatMap fun i =>
        ((itertoolsProduct marks i).filter fun c => !skipComb sem c).map String.join := by
  intro l
  induction l with
  | nil => intro acc; simp
  | cons i is ih =>
    intro acc
    rw [List.foldl_cons, foldl_filter_append, ih, List.flatMap_cons, List.append_assoc]

/-- C6: for every mark alphabet, bound `n` and required end mark,
`get_combinations` returns, for each length `1` through `n` in increasing
order, the concatenations of exactly those ordered tuples with repetition
over the marks (in `itertools.product` order) whose last mark equals the
required end mark — all combinations of shorter lengths enumerated before
longer ones. -/
theorem c6_get_combinations (marks : List String) (n : Nat) (e : String) :
    get_combinations marks n (Option.some e) =
      (List.range' 1 n).flatMap fun i =>
        ((itertoolsProduct marks i).filter fun comb => comb.getLast? == Option.some e).map
          String.join := by
  unfold get_combinations
  rw [get_combinations_eq_flatMap, List.nil_append]
  have hp : (fun c : List String => !skipComb (Option.some e) c) =
      fun c : List String => c.getLast? == Option.some e := by
    funext c
    simp [skipComb, bne]
  rw [hp]

theorem completeAttemptsLoop_le (comp : String) :
    ∀ (fuel : Nat) (cs : List Char), completeAttemptsLoop comp fuel cs ≤ fuel := by
  intro fuel
  induction fuel with
  | zero => intro cs; cases cs <;> simp [completeAttemptsLoop]
  | succ f ih =>
    intro cs
    cases cs with
    | nil => simp [completeAttemptsLoop]
    | cons c cs2 =>
      rw [completeAttemptsLoop]
      cases jsonLoads (String.mk (c :: cs2) ++ comp) with
      | some v => exact Nat.le_add_left 1 f
      | none =>
        have := ih (c :: cs2).dropLast
        show 1 + completeAttemptsLoop comp f (c :: cs2).dropLast ≤ f + 1
        omega

theorem completeLoop_ok_prefix (comp : String) :
    ∀ (fuel : Nat) (cs : List Char) (v : PyVal),
      completeLoop comp fuel cs = Except.ok v →
      ∃ k, k ≤ cs.length ∧ jsonLoads (String.mk (cs.take k) ++ comp) = some v := by
  intro fuel
  induction fuel with
  | zero => intro cs v h; cases cs <;> simp [completeLoop] at h
  | succ f ih =>
    intro cs v h
    cases cs with
    | nil => simp [completeLoop] at h
    | cons c cs2 =>
      rw [completeLoop] at h
      cases hj : jsonLoads (String.mk (c :: cs2) ++ comp) with
      | some w =>
        rw [hj] at h
        refine ⟨(c :: cs2).length, Nat.le_refl _, ?_⟩
        rw [List.take_length, hj]
        exact congrArg some (Except.ok.inj h)
      | none =>
        rw [hj] at h
        obtain ⟨k, hk, hparse⟩ := ih (c :: cs2).dropLast v h
        have hk2 : k ≤ (c :: cs2).length - 1 := by simpa using hk
        refine ⟨k, by omega, ?_⟩
        rw [List.dropLast_eq_take, List.take_take] at hparse
        have hmin : min k ((c :: cs2).length - 1) = k := by omega
        rwa [hmin] at hparse

theorem completeLoop_all_fail (comp : String) :
    ∀ (fuel : Nat) (cs : List Char),
      (∀ k, 0 < k → k ≤ cs.length → jsonLoads (String.mk (cs.take k) ++ comp) = Option.none) →
      completeLoop comp fuel cs = Except.error (PyErr.valueErr "Couldn't fix JSON") := by
  intro fuel
  induction fuel with
  | zero => intro cs h; cases cs <;> simp [completeLoop]
  | succ f ih =>
    intro cs h
    cases cs with
    | nil => simp [completeLoop]
    | cons c cs2 =>
      rw [completeLoop]
      have hfull : jsonLoads (String.mk (c :: cs2) ++ comp) = Option.none := by
        have := h (c :: cs2).length (by simp) (Nat.le_refl _)
        rwa [List.take_length] at this
      rw [hfull]
      apply ih
      intro k hk0 hk
      have hk2 : k ≤ (c :: cs2).length - 1 := by simpa using hk
      rw [List.dropLast_eq_take, List.take_take]
      have hmin : min k ((c :: cs2).length - 1) = k := by omega
      rw [hmin]
      exact h k hk0 (by omega)

/-- C4: for every text and suffix, `complete_json_object` performs at most
`length(text) + 1` parse attempts; when it returns a value, that value is
the successful `json.loads` parse of some prefix of the text concatenated
with the suffix; and when no non-empty prefix of the text combined with the
suffix parses, it fails with `ValueError "Couldn't fix JSON"` once the text
has been truncated to empty. -/
theorem c4_complete_json_object (t s : String) :
    complete_json_attempts t s ≤ t.length + 1 ∧
    (∀ v, complete_json_object t s = Except.ok v →
      ∃ k, k ≤ t.data.length ∧ jsonLoads (String.mk (t.data.take k) ++ s) = some v) ∧
    ((∀ k, 0 < k → k ≤ t.data.length →
        jsonLoads (String.mk (t.data.take k) ++ s) = Option.none) →
      complete_json_object t s = Except.error (PyErr.valueErr "Couldn't fix JSON")) := by
  refine ⟨?_, ?_, ?_⟩
  · have h1 := completeAttemptsLoop_le s t.data.length t.data
    have h2 : t.length = t.data.length := rfl
    unfold complete_json_attempts
    omega
  · intro v h
    exact completeLoop_ok_prefix s t.data.length t.data v h
  · intro h
    exact completeLoop_all_fail s t.data.length t.data h

theorem c4_complete_json_object_witness :
    complete_json_attempts "x" "" ≤ "x".length + 1 ∧
    complete_json_object "x" "" = Except.error (PyErr.valueErr "Couldn't fix JSON") := by
  refine ⟨(c4_complete_json_object "x" "").1, (c4_complete_json_object "x" "").2.2 ?_⟩
  intro k hk0 hk1
  have hk : k = 1 := by simpa using Nat.le_antisymm hk1 hk0
  subst hk
  rfl

theorem le_foldl_max : ∀ (l : List Nat) (a : Nat), a ≤ l.foldl max a := by
  intro l
  induction l with
  | nil => intro a; exact Nat.le_refl a
  | cons x xs ih =>
    intro a
    exact Nat.le_trans (Nat.le_max_left a x) (ih (max a x))

theorem mem_le_foldl_max : ∀ (l : List Nat) (a x : Nat), x ∈ l → x ≤ l.foldl max a := by
  intro l
  induction l with
  | nil => intro a x hx; cases hx
  | cons y ys ih =>
    intro a x hx
    rcases List.mem_cons.mp hx with h | h
    · subst h
      exact Nat.le_trans (Nat.le_max_right a x) (le_foldl_max ys (max a x))
    · exact ih (max a y) x h

theorem foldl_max_mem : ∀ (l : List Nat) (a : Nat), l.foldl max a = a ∨ l.foldl max a ∈ l := by
  intro l
  induction l with
  | nil => intro a; exact Or.inl rfl
  | cons x xs ih =>
    intro a
    rcases ih (max a x) with h | h
    · rcases max_choice a x with hm | hm
      · exact Or.inl (by rw [List.foldl_cons, h, hm])
      · exact Or.inr (by rw [List.foldl_cons, h, hm]; exact List.mem_cons_self x xs)
    · exact Or.inr (List.mem_cons_of_mem x h)

theorem find?_eq_head_filter {α : Type} (p : α → Bool) :
    ∀ l : List α, l.find? p = (l.filter p).head? := by
  intro l
  induction l with
  | nil => rfl
  | cons x xs ih =>
    by_cases hx : p x
    · simp [List.find?_cons, List.filter_cons, hx]
    · simp only [List.find?_cons, List.filter_cons]
      rw [if_neg hx]
      simp only [Bool.not_eq_true] at hx
      rw [hx]
      exact ih

theorem filter_orderedInsert_key (n : Nat) (x : PyVal) (hx : strLen x = n) :
    ∀ l : List PyVal,
      ((l.orderedInsert descLe x).filter fun e => strLen e == n) =
        x :: l.filter fun e => strLen e == n := by
  intro l
  induction l with
  | nil => simp [List.orderedInsert, List.filter_cons, hx]
  | cons y ys ih =>
    rw [List.orderedInsert]
    by_cases hle : descLe x y
    · rw [if_pos hle, List.filter_cons, List.filter_cons]
      simp [hx]
    · rw [if_neg hle]
      have hy : (strLen y == n) = false := by
        have : ¬ strLen y ≤ strLen x := hle
        simp only [beq_eq_false_iff_ne, ne_eq]
        omega
      rw [List.filter_cons, hy, ih, List.filter_cons, hy]
      simp

theorem filter_orderedInsert_ne (n : Nat) (x : PyVal) (hx : strLen x ≠ n) :
    ∀ l : List PyVal,
      ((l.orderedInsert descLe x).filter fun e => strLen e == n) =
        l.filter fun e => strLen e == n := by
  intro l
  have hxb : (strLen x == n) = false := by simpa using hx
  induction l with
  | nil => simp [List.orderedInsert, List.filter_cons, hxb]
  | cons y ys ih =>
    rw [List.orderedInsert]
    by_cases hle : descLe x y
    · rw [if_pos hle, List.filter_cons, hxb]
      simp
    · rw [if_neg hle, List.filter_cons, List.filter_cons, ih]

theorem insertionSort_filter_key (n : Nat) :
    ∀ l : List PyVal,
      ((l.insertionSort descLe).filter fun e => strLen e == n) =
        l.filter fun e => strLen e == n := by
  intro l
  induction l with
  | nil => rfl
  | cons x xs ih =>
    rw [List.insertionSort]
    by_cases hx : strLen x = n
    · rw [filter_orderedInsert_key n x hx, ih, List.filter_cons]
      simp [hx]
    · rw [filter_orderedInsert_ne n x hx, ih, List.filter_cons]
      have hb : (strLen x == n) = false := by simpa using hx
      rw [hb]
      simp

theorem find_max_length_cons (x : PyVal) (xs : List PyVal) :
    find_max_length (x :: xs) =
      match (x :: xs).find? fun element =>
          strLen element == (xs.map strLen).foldl max (strLen x) with
      | some completion => Except.ok ⟨completion, (x :: xs).insertionSort descLe⟩
      | Option.none => Except.error (PyErr.valueErr "StopIteration") := rfl

theorem strLen_le_max (x : PyVal) (xs : List PyVal) (v : PyVal) (hv : v ∈ x :: xs) :
    strLen v ≤ (xs.map strLen).foldl max (strLen x) := by
  rcases List.mem_cons.mp hv with h | h
  · subst h
    exact le_foldl_max (xs.map strLen) (strLen v)
  · exact mem_le_foldl_max (xs.map strLen) (strLen x) (strLen v) (List.mem_map_of_mem strLen h)

/-- C5: for every non-empty list of candidate values, `find_max_length`
returns a dictionary whose `suggestions` entry is the input list sorted
non-increasingly by the length of each element's string rendering — a
permutation of the input, pairwise non-increasing, and stable with respect
to encounter order (elements of each rendering length keep their original
relative order) — whose `completion` entry has rendering length at least
that of every suggestion, and in which the completion is the first
suggestion. -/
theorem c5_find_max_length (l : List PyVal) (hl : l ≠ []) :
    ∃ out, find_max_length l = Except.ok out ∧
      out.suggestions.Perm l ∧
      out.suggestions.Pairwise (fun a b => (pyStr b).length ≤ (pyStr a).length) ∧
      (∀ n, (out.suggestions.filter fun e => (pyStr e).length == n) =
        l.filter fun e => (pyStr e).length == n) ∧
      (∀ v ∈ out.suggestions, (pyStr v).length ≤ (pyStr out.completion).length) ∧
      out.suggestions.head? = some out.completion := by
  cases l with
  | nil => exact absurd rfl hl
  | cons x xs =>
    have hmem : ∃ e ∈ x :: xs, strLen e = (xs.map strLen).foldl max (strLen x) := by
      rcases foldl_max_mem (xs.map strLen) (strLen x) with h | h
      · exact ⟨x, List.mem_cons_self x xs, h.symm⟩
      · obtain ⟨e, he, heq⟩ := List.mem_map.mp h
        exact ⟨e, List.mem_cons_of_mem x he, heq⟩
    have hfindSome :
        ((x :: xs).find? fun element =>
          strLen element == (xs.map strLen).foldl max (strLen x)).isSome := by
      rw [List.find?_isSome]
      obtain ⟨e, he, heq⟩ := hmem
      exact ⟨e, he, by simpa using heq⟩
    cases hf : (x :: xs).find? fun element =>
        strLen element == (xs.map strLen).foldl max (strLen x) with
    | none => rw [hf] at hfindSome; simp at hfindSome
    | some completion =>
      have hcompM : strLen completion = (xs.map strLen).foldl max (strLen x) := by
        have := List.find?_some hf
        simpa using this
      refine ⟨⟨completion, (x :: xs).insertionSort descLe⟩, ?_, ?_, ?_, ?_, ?_, ?_⟩
      · rw [find_max_length_cons, hf]
      · exact List.perm_insertionSort descLe (x :: xs)
      · exact List.sorted_insertionSort descLe (x :: xs)
      · intro n
        exact insertionSort_filter_key n (x :: xs)
      · intro v hv
        have hv2 : v ∈ x :: xs := (List.mem_insertionSort descLe).mp hv
        have := strLen_le_max x xs v hv2
        show strLen v ≤ strLen completion
        omega
      · have hlen : ((x :: xs).insertionSort descLe).length = (x :: xs).length :=
          List.length_insertionSort descLe (x :: xs)
        cases hsort : (x :: xs).insertionSort descLe with
        | nil => rw [hsort] at hlen; simp at hlen
        | cons hd tl =>
          have hhd_mem : hd ∈ x :: xs := by
            have : hd ∈ (x :: xs).insertionSort descLe := by
              rw [hsort]; exact List.mem_cons_self hd tl
            exact (List.mem_insertionSort descLe).mp this
          have hhd_le := strLen_le_max x xs hd hhd_mem
          have hcomp_mem : completion ∈ x :: xs := List.mem_of_find?_eq_some hf
          have hcomp_in_sort : completion ∈ hd :: tl := by
            rw [← hsort]; exact (List.mem_insertionSort descLe).mpr hcomp_mem
          have hsorted : List.Sorted descLe (hd :: tl) := by
            rw [← hsort]; exact List.sorted_insertionSort descLe (x :: xs)
          have hM_le_hd : (xs.map strLen).foldl max (strLen x) ≤ strLen hd := by
            rcases List.mem_cons.mp hcomp_in_sort with h | h
            · rw [← hcompM, h]
            · have hrel := (List.sorted_cons.mp hsorted).1 completion h
              have : strLen completion ≤ strLen hd := hrel
              omega
          have hhdM : strLen hd = (xs.map strLen).foldl max (strLen x) :=
            Nat.le_antisymm hhd_le hM_le_hd
          have hfind2 : ((x :: xs).find? fun element =>
              strLen element == (xs.map strLen).foldl max (strLen x)) = some hd := by
            rw [find?_eq_head_filter,
              ← insertionSort_filter_key ((xs.map strLen).foldl max (strLen x)) (x :: xs),
              hsort, List.filter_cons]
            have hb : (strLen hd == (xs.map strLen).foldl max (strLen x)) = true := by
              simpa using hhdM
            rw [hb]
            simp
          have hch : completion = hd := by
            rw [hf] at hfind2
            exact Option.some.inj hfind2
          show (hd :: tl).head? = some completion
          rw [hch]
          rfl

theorem c5_find_max_length_witness :
    ∃ out, find_max_length [PyVal.int 1, PyVal.str "abc"] = Except.ok out ∧
      out.suggestions.Perm [PyVal.int 1, PyVal.str "abc"] ∧
      out.suggestions.Pairwise (fun a b => (pyStr b).length ≤ (pyStr a).length) ∧
      (∀ n, (out.suggestions.filter fun e => (pyStr e).length == n) =
        [PyVal.int 1, PyVal.str "abc"].filter fun e => (pyStr e).length == n) ∧
      (∀ v ∈ out.suggestions, (pyStr v).length ≤ (pyStr out.completion).length) ∧
      out.suggestions.head? = some out.completion :=
  c5_find_max_length [PyVal.int 1, PyVal.str "abc"] (List.cons_ne_nil _ _)

theorem digitChar_isDigit (n : Nat) (h : n < 10) : (digitChar n).isDigit = true := by
  interval_cases n <;> decide

theorem digitVal_digitChar (n : Nat) (h : n < 10) : digitVal (digitChar n) = n := by
  interval_cases n <;> decide

theorem digit_not_ws (c : Char) (h : c.isDigit = true) : pyWs c = false := by
  simp only [pyWs, Bool.or_eq_false_iff]
  refine ⟨⟨⟨⟨⟨?_, ?_⟩, ?_⟩, ?_⟩, ?_⟩, ?_⟩ <;>
    · apply beq_false_of_ne
      intro he
      subst he
      exact absurd h (by decide)

theorem natCharsAux_all_digits :
    ∀ (fuel n : Nat), ∀ c ∈ natCharsAux fuel n, c.isDigit = true := by
  intro fuel
  induction fuel with
  | zero => intro n c hc; cases hc
  | succ f ih =>
    intro n c hc
    rw [natCharsAux] at hc
    by_cases h10 : n < 10
    · rw [if_pos h10] at hc
      rcases List.mem_singleton.mp hc with rfl
      exact digitChar_isDigit n h10
    · rw [if_neg h10] at hc
      rcases List.mem_append.mp hc with h | h
      · exact ih (n / 10) c h
      · rcases List.mem_singleton.mp h with rfl
        exact digitChar_isDigit (n % 10) (Nat.mod_lt n (by omega))

theorem natCharsAux_ne_nil (fuel n : Nat) (h : n < fuel) : natCharsAux fuel n ≠ [] := by
  cases fuel with
  | zero => omega
  | succ f =>
    rw [natCharsAux]
    by_cases h10 : n < 10
    · rw [if_pos h10]; simp
    · rw [if_neg h10]; simp

theorem takeDigits_append :
    ∀ (ds rest : List Char), (∀ c ∈ ds, c.isDigit = true) →
      (∀ c, rest.head? = some c → c.isDigit = false) →
      takeDigits (ds ++ rest) = (ds, rest) := by
  intro ds
  induction ds with
  | nil =>
    intro rest _ hrest
    cases rest with
    | nil => rfl
    | cons c cs =>
      have := hrest c rfl
      simp [takeDigits, this]
  | cons d ds2 ih =>
    intro rest hds hrest
    have hd : d.isDigit = true := hds d (List.mem_cons_self d ds2)
    have ih2 := ih rest (fun c hc => hds c (List.mem_cons_of_mem d hc)) hrest
    simp [takeDigits, hd, ih2]

theorem digitsToNat_append :
    ∀ (xs ys : List Char) (acc : Nat),
      digitsToNat acc (xs ++ ys) = digitsToNat (digitsToNat acc xs) ys := by
  intro xs
  induction xs with
  | nil => intro ys acc; rfl
  | cons x xs2 ih =>
    intro ys acc
    show digitsToNat (acc * 10 + digitVal x) (xs2 ++ ys) =
      digitsToNat (digitsToNat (acc * 10 + digitVal x) xs2) ys
    exact ih ys (acc * 10 + digitVal x)

theorem dtn_cons (acc : Nat) (c : Char) (cs : List Char) :
    digitsToNat acc (c :: cs) = digitsToNat (acc * 10 + digitVal c) cs := rfl

theorem dtn_nil (acc : Nat) : digitsToNat acc [] = acc := rfl

theorem digitsToNat_natCharsAux :
    ∀ (fuel n acc : Nat), n < fuel →
      digitsToNat acc (natCharsAux fuel n) =
        acc * 10 ^ (natCharsAux fuel n).length + n := by
  intro fuel
  induction fuel with
  | zero => intro n acc h; omega
  | succ f ih =>
    intro n acc h
    rw [natCharsAux]
    by_cases h10 : n < 10
    · rw [if_pos h10]
      rw [dtn_cons, dtn_nil, digitVal_digitChar n h10, List.length_singleton, pow_one]
    · rw [if_neg h10]
      have hdiv : n / 10 < f := by
        have h1 : n / 10 < n := Nat.div_lt_self (by omega) (by omega)
        omega
      rw [digitsToNat_append, ih (n / 10) acc hdiv, dtn_cons, dtn_nil,
        digitVal_digitChar (n % 10) (Nat.mod_lt n (by omega)),
        List.length_append, List.length_singleton, pow_succ, ← Nat.mul_assoc]
      generalize acc * 10 ^ (natCharsAux f (n / 10)).length = A
      omega

theorem digitsToNat_natChars (n : Nat) : digitsToNat 0 (natChars n) = n := by
  unfold natChars
  rw [digitsToNat_natCharsAux (n + 1) n 0 (Nat.lt_succ_self n)]
  simp

theorem skipWs_cons_of_not (c : Char) (cs : List Char) (h : pyWs c = false) :
    skipWs (c :: cs) = c :: cs := by
  simp [skipWs, h]

theorem parseStrBody_escStr :
    ∀ (s rest : List Char), parseStrBody '"' (escStr s ++ '"' :: rest) = some (s, rest) := by
  intro s
  induction s with
  | nil => intro rest; rfl
  | cons c cs ih =>
    intro rest
    show parseStrBody '"' ((escChar c ++ escStr cs) ++ '"' :: rest) = _
    rw [List.append_assoc]
    by_cases h1 : c = '"'
    · subst h1; simp [escChar, parseStrBody, parseStrEsc, unescape, squote, ih]
    · by_cases h2 : c = '\\'
      · subst h2; simp [escChar, parseStrBody, parseStrEsc, unescape, squote, ih]
      · by_cases h3 : c = '\n'
        · subst h3; simp [escChar, parseStrBody, parseStrEsc, unescape, squote, ih]
        · by_cases h4 : c = '\t'
          · subst h4; simp [escChar, parseStrBody, parseStrEsc, unescape, squote, ih]
          · by_cases h5 : c = '\r'
            · subst h5; simp [escChar, parseStrBody, parseStrEsc, unescape, squote, ih]
            · by_cases h6 : c = '\x08'
              · subst h6; simp [escChar, parseStrBody, parseStrEsc, unescape, squote, ih]
              · by_cases h7 : c = '\x0c'
                · subst h7; simp [escChar, parseStrBody, parseStrEsc, unescape, squote, ih]
                · have he : escChar c = [c] := by
                    simp [escChar, h1, h2, h3, h4, h5, h6, h7]
                  rw [he, List.singleton_append, parseStrBody.eq_def]
                  dsimp only
                  rw [if_neg h1, if_neg h2, ih]

theorem pyParseVal_ws (fuel : Nat) (c : Char) (cs : List Char) (h : pyWs c = true) :
    pyParseVal fuel (c :: cs) = pyParseVal fuel cs := by
  cases fuel with
  | zero => rfl
  | succ f =>
    have hsk : skipWs (c :: cs) = skipWs cs := by simp [skipWs, h]
    rw [pyParseVal, pyParseVal, hsk]

theorem pyParseMembers_ws (fuel : Nat) (c : Char) (cs : List Char) (h : pyWs c = true) :
    pyParseMembers fuel (c :: cs) = pyParseMembers fuel cs := by
  cases fuel with
  | zero => rfl
  | succ f =>
    have hsk : skipWs (c :: cs) = skipWs cs := by simp [skipWs, h]
    rw [pyParseMembers, pyParseMembers, hsk]

theorem pyParseItems_ws (fuel : Nat) (c : Char) (cs : List Char) (h : pyWs c = true) :
    pyParseItems fuel (c :: cs) = pyParseItems fuel cs := by
  cases fuel with
  | zero => rfl
  | succ f => rw [pyParseItems, pyParseItems, pyParseVal_ws f c cs h]

theorem natChars_all_digits (n : Nat) : ∀ c ∈ natChars n, c.isDigit = true :=
  fun c hc => natCharsAux_all_digits (n + 1) n c hc

theorem natChars_ne_nil (n : Nat) : natChars n ≠ [] :=
  natCharsAux_ne_nil (n + 1) n (Nat.lt_succ_self n)

theorem pyParseVal_intChars (n : Int) (rest : List Char) (f : Nat)
    (hrest : ∀ c, rest.head? = some c → c.isDigit = false) :
    pyParseVal (f + 1) (intChars n ++ rest) = some (PyVal.int n, rest) := by
  cases n with
  | ofNat m =>
    show pyParseVal (f + 1) (natChars m ++ rest) = some (PyVal.int (Int.ofNat m), rest)
    rcases hnc : natChars m with _ | ⟨d, ds⟩
    · exact absurd hnc (natChars_ne_nil m)
    · have hdigits : ∀ c ∈ d :: ds, c.isDigit = true := by
        intro c hc
        exact natChars_all_digits m c (by rw [hnc]; exact hc)
      have hd : d.isDigit = true := hdigits d (List.mem_cons_self d ds)
      have htake : takeDigits ((d :: ds) ++ rest) = (d :: ds, rest) :=
        takeDigits_append (d :: ds) rest hdigits hrest
      have hval : digitsToNat 0 (d :: ds) = m := by
        rw [← hnc]; exact digitsToNat_natChars m
      rw [pyParseVal, List.cons_append,
        skipWs_cons_of_not d (ds ++ rest) (digit_not_ws d hd)]
      dsimp only
      rw [← List.cons_append]
      simp only [hd, if_true, htake, hval]
  | negSucc m =>
    show pyParseVal (f + 1) (('-' :: natChars (m + 1)) ++ rest) =
      some (PyVal.int (Int.negSucc m), rest)
    rcases hnc : natChars (m + 1) with _ | ⟨d, ds⟩
    · exact absurd hnc (natChars_ne_nil (m + 1))
    · have hdigits : ∀ c ∈ d :: ds, c.isDigit = true := by
        intro c hc
        exact natChars_all_digits (m + 1) c (by rw [hnc]; exact hc)
      have htake : takeDigits ((d :: ds) ++ rest) = (d :: ds, rest) :=
        takeDigits_append (d :: ds) rest hdigits hrest
      have hval : digitsToNat 0 (d :: ds) = m + 1 := by
        rw [← hnc]; exact digitsToNat_natChars (m + 1)
      rw [List.cons_append, pyParseVal,
        skipWs_cons_of_not '-' ((d :: ds) ++ rest) (by decide)]
      dsimp only
      rw [if_neg (by decide : ¬('-'.isDigit = true)), if_pos (rfl : '-' = '-'), htake]
      dsimp only
      rw [hval]
      rfl

theorem head_not_digit_of (a : Char) (h : a.isDigit = false) (l : List Char) :
    ∀ c, (a :: l).head? = some c → c.isDigit = false := by
  intro c hc
  simp only [List.head?_cons] at hc
  rw [← Option.some.inj hc]
  exact h

theorem renderChars_head_spec :
    ∀ v : PyVal, ∃ c cs, renderChars v = c :: cs ∧ pyWs c = false ∧ c ≠ ']' ∧ c ≠ '}' := by
  intro v
  cases v with
  | int n =>
    cases n with
    | ofNat m =>
      rcases hnc : natChars m with _ | ⟨d, ds⟩
      · exact absurd hnc (natChars_ne_nil m)
      · have hd : d.isDigit = true :=
          natChars_all_digits m d (by rw [hnc]; exact List.mem_cons_self d ds)
        refine ⟨d, ds, ?_, digit_not_ws d hd, ?_, ?_⟩
        · show natChars m = d :: ds
          exact hnc
        · intro hcon; subst hcon; exact absurd hd (by decide)
        · intro hcon; subst hcon; exact absurd hd (by decide)
    | negSucc m => exact ⟨'-', _, rfl, by decide⟩
  | bool b => cases b <;> exact ⟨_, _, rfl, by decide⟩
  | none => exact ⟨'n', _, rfl, by decide⟩
  | str s => exact ⟨'"', _, rfl, by decide⟩
  | list xs => exact ⟨'[', _, rfl, by decide⟩
  | dict kvs => exact ⟨'{', _, rfl, by decide⟩

theorem renderList_head_spec (x : PyVal) (xs : List PyVal) :
    ∃ c cs, renderList (x :: xs) = c :: cs ∧ pyWs c = false ∧ c ≠ ']' := by
  obtain ⟨c, cs0, hx, hws, hne, _⟩ := renderChars_head_spec x
  cases xs with
  | nil =>
    exact ⟨c, cs0, by rw [show renderList [x] = renderChars x from rfl, hx], hws, hne⟩
  | cons y ys =>
    refine ⟨c, cs0 ++ [',', ' '] ++ renderList (y :: ys), ?_, hws, hne⟩
    rw [show renderList (x :: y :: ys) =
      renderChars x ++ [',', ' '] ++ renderList (y :: ys) from rfl, hx]
    simp [List.cons_append, List.append_assoc]

theorem renderDict_head_spec (kv : String × PyVal) (kvs : List (String × PyVal)) :
    ∃ cs, renderDict (kv :: kvs) = '"' :: cs := by
  cases kvs with
  | nil => exact ⟨_, rfl⟩
  | cons e kvs2 => exact ⟨_, rfl⟩

theorem pyParseVal_lbrack (f : Nat) (T : List Char) :
    pyParseVal (f + 1) ('[' :: T) =
      (match skipWs T with
       | [] => Option.none
       | d :: rest2 =>
         if d = ']' then some (PyVal.list [], rest2)
         else
           match pyParseItems f (d :: rest2) with
           | some p => some (PyVal.list p.1, p.2)
           | Option.none => Option.none) := rfl

theorem pyParseVal_lbrace (f : Nat) (T : List Char) :
    pyParseVal (f + 1) ('{' :: T) =
      (match skipWs T with
       | [] => Option.none
       | d :: rest2 =>
         if d = '}' then some (PyVal.dict [], rest2)
         else
           match pyParseMembers f (d :: rest2) with
           | some p => some (PyVal.dict p.1, p.2)
           | Option.none => Option.none) := rfl

theorem pyParseVal_dquote (f : Nat) (T : List Char) :
    pyParseVal (f + 1) ('"' :: T) =
      (match parseStrBody '"' T with
       | some p => some (PyVal.str (String.mk p.1), p.2)
       | Option.none => Option.none) := rfl

theorem pyParseMembers_dquote (f : Nat) (T : List Char) :
    pyParseMembers (f + 1) ('"' :: T) =
      (match parseStrBody '"' T with
       | some kp =>
         (match skipWs kp.2 with
          | ':' :: r2 =>
            (match pyParseVal f r2 with
             | some vp =>
               (match skipWs vp.2 with
                | ',' :: r4 =>
                  (match pyParseMembers f r4 with
                   | some mp => some ((String.mk kp.1, vp.1) :: mp.1, mp.2)
                   | Option.none => Option.none)
                | '}' :: r4 => some ([(String.mk kp.1, vp.1)], r4)
                | _ => Option.none)
             | Option.none => Option.none)
          | _ => Option.none)
       | Option.none => Option.none) := rfl

theorem pyParseItems_step (f : Nat) (T : List Char) :
    pyParseItems (f + 1) T =
      (match pyParseVal f T with
       | some vp =>
         (match skipWs vp.2 with
          | ',' :: r2 =>
            (match pyParseItems f r2 with
             | some ip => some (vp.1 :: ip.1, ip.2)
             | Option.none => Option.none)
          | ']' :: r2 => some ([vp.1], r2)
          | _ => Option.none)
       | Option.none => Option.none) := rfl

theorem band_true_left {a b : Bool} (h : (a && b) = true) : a = true := by
  cases a
  · simp at h
  · rfl

theorem band_true_right {a b : Bool} (h : (a && b) = true) : b = true := by
  cases b
  · simp at h
  · rfl

mutual
theorem rtVal : ∀ (v : PyVal), pyClean v = true → ∀ (rest : List Char) (fuel : Nat),
    (renderChars v).length < fuel →
    (∀ c, rest.head? = some c → c.isDigit = false) →
    pyParseVal fuel (renderChars v ++ rest) = some (v, rest)
  | PyVal.none => by intro h; simp [pyClean] at h
  | PyVal.bool b => by intro h; cases b <;> simp [pyClean] at h
  | PyVal.int n => by
    intro _ rest fuel hfuel hrest
    cases fuel with
    | zero => omega
    | succ f =>
      show pyParseVal (f + 1) (intChars n ++ rest) = some (PyVal.int n, rest)
      exact pyParseVal_intChars n rest f hrest
  | PyVal.str s => by
    intro _ rest fuel hfuel _
    cases fuel with
    | zero => omega
    | succ f =>
      show pyParseVal (f + 1) (('"' :: (escStr s.data ++ ['"'])) ++ rest) =
        some (PyVal.str s, rest)
      rw [List.cons_append, pyParseVal_dquote]
      have hW : (escStr s.data ++ ['"']) ++ rest = escStr s.data ++ '"' :: rest := by simp
      rw [hW, parseStrBody_escStr]
  | PyVal.list [] => by
    intro _ rest fuel hfuel _
    cases fuel with
    | zero => omega
    | succ f => rfl
  | PyVal.list (x :: xs) => by
    intro hclean rest fuel hfuel _
    have hxs : pyCleanList (x :: xs) = true := hclean
    cases fuel with
    | zero => omega
    | succ f =>
      obtain ⟨c0, cs0, hrl, hws0, hne0⟩ := renderList_head_spec x xs
      have hL : (renderChars (PyVal.list (x :: xs))).length =
          (renderList (x :: xs)).length + 2 := by
        show ('[' :: (renderList (x :: xs) ++ [']'])).length = _
        simp
      show pyParseVal (f + 1) (('[' :: (renderList (x :: xs) ++ [']'])) ++ rest) =
        some (PyVal.list (x :: xs), rest)
      rw [List.cons_append, pyParseVal_lbrack]
      have hZ : (renderList (x :: xs) ++ [']']) ++ rest = c0 :: (cs0 ++ ']' :: rest) := by
        rw [hrl]; simp
      rw [hZ, skipWs_cons_of_not c0 _ hws0]
      dsimp only
      rw [if_neg hne0]
      have hback : c0 :: (cs0 ++ ']' :: rest) = renderList (x :: xs) ++ ']' :: rest := by
        rw [hrl]; simp
      rw [hback, rtItems (x :: xs) hxs rest f (by omega) (List.cons_ne_nil x xs)]
  | PyVal.dict [] => by
    intro _ rest fuel hfuel _
    cases fuel with
    | zero => omega
    | succ f => rfl
  | PyVal.dict (kv :: kvs) => by
    intro hclean rest fuel hfuel _
    have hkvs : pyCleanDict (kv :: kvs) = true := hclean
    cases fuel with
    | zero => omega
    | succ f =>
      obtain ⟨cs1, hrd⟩ := renderDict_head_spec kv kvs
      have hL : (renderChars (PyVal.dict (kv :: kvs))).length =
          (renderDict (kv :: kvs)).length + 2 := by
        show ('{' :: (renderDict (kv :: kvs) ++ ['}'])).length = _
        simp
      show pyParseVal (f + 1) (('{' :: (renderDict (kv :: kvs) ++ ['}'])) ++ rest) =
        some (PyVal.dict (kv :: kvs), rest)
      rw [List.cons_append, pyParseVal_lbrace]
      have hZ : (renderDict (kv :: kvs) ++ ['}']) ++ rest = '"' :: (cs1 ++ '}' :: rest) := by
        rw [hrd]; simp
      rw [hZ, skipWs_cons_of_not '"' _ (by decide)]
      dsimp only
      rw [if_neg (by decide : ¬('"' = '}'))]
      have hback : '"' :: (cs1 ++ '}' :: rest) = renderDict (kv :: kvs) ++ '}' :: rest := by
        rw [hrd]; simp
      rw [hback, rtMembers (kv :: kvs) hkvs rest f (by omega) (List.cons_ne_nil kv kvs)]

theorem rtItems : ∀ (xs : List PyVal), pyCleanList xs = true →
    ∀ (rest : List Char) (fuel : Nat),
    (renderList xs).length + 1 < fuel → xs ≠ [] →
    pyParseItems fuel (renderList xs ++ ']' :: rest) = some (xs, rest)
  | [] => by intro _ _ _ _ hne; exact absurd rfl hne
  | [x] => by
    intro hclean rest fuel hfuel _
    have hx : pyClean x = true := band_true_left hclean
    cases fuel with
    | zero => omega
    | succ f =>
      have hrl : renderList [x] = renderChars x := rfl
      have hL : (renderList [x]).length = (renderChars x).length := by rw [hrl]
      rw [pyParseItems_step, hrl,
        rtVal x hx (']' :: rest) f (by omega) (head_not_digit_of ']' (by decide) rest)]
      rfl
  | x :: y :: xs => by
    intro hclean rest fuel hfuel _
    have hx : pyClean x = true := band_true_left hclean
    have hys : pyCleanList (y :: xs) = true := band_true_right hclean
    cases fuel with
    | zero => omega
    | succ f =>
      have hrl : renderList (x :: y :: xs) =
        renderChars x ++ [',', ' '] ++ renderList (y :: xs) := rfl
      have hL : (renderList (x :: y :: xs)).length =
          (renderChars x).length + 2 + (renderList (y :: xs)).length := by
        rw [hrl]; simp only [List.length_append, List.length_cons, List.length_nil]
      have hW : renderList (x :: y :: xs) ++ ']' :: rest =
          renderChars x ++ ',' :: ' ' :: (renderList (y :: xs) ++ ']' :: rest) := by
        rw [hrl]; simp
      have hA := rtVal x hx (',' :: ' ' :: (renderList (y :: xs) ++ ']' :: rest)) f (by omega)
        (head_not_digit_of ',' (by decide) _)
      have hsk1 := skipWs_cons_of_not ',' (' ' :: (renderList (y :: xs) ++ ']' :: rest)) (by decide)
      have hB : pyParseItems f (' ' :: (renderList (y :: xs) ++ ']' :: rest)) =
          some (y :: xs, rest) := by
        rw [pyParseItems_ws f ' ' _ (by decide)]
        exact rtItems (y :: xs) hys rest f (by omega) (List.cons_ne_nil y xs)
      rw [pyParseItems_step, hW, hA]
      simp only [hsk1, hB]

theorem rtMembers : ∀ (kvs : List (String × PyVal)), pyCleanDict kvs = true →
    ∀ (rest : List Char) (fuel : Nat),
    (renderDict kvs).length + 1 < fuel → kvs ≠ [] →
    pyParseMembers fuel (renderDict kvs ++ '}' :: rest) = some (kvs, rest)
  | [] => by intro _ _ _ _ hne; exact absurd rfl hne
  | [(k, v)] => by
    intro hclean rest fuel hfuel _
    have hv : pyClean v = true := band_true_left hclean
    cases fuel with
    | zero => omega
    | succ f =>
      have hrd : renderDict [(k, v)] =
        '"' :: ((escStr k.data ++ ['"', ':', ' ']) ++ renderChars v) := rfl
      have hL : (renderDict [(k, v)]).length =
          (escStr k.data).length + 4 + (renderChars v).length := by
        rw [hrd]; simp; omega
      have hW : renderDict [(k, v)] ++ '}' :: rest =
          '"' :: (escStr k.data ++ '"' :: ':' :: ' ' :: (renderChars v ++ '}' :: rest)) := by
        rw [hrd]; simp
      have hsk1 := skipWs_cons_of_not ':' (' ' :: (renderChars v ++ '}' :: rest)) (by decide)
      have hA : pyParseVal f (' ' :: (renderChars v ++ '}' :: rest)) =
          some (v, '}' :: rest) := by
        rw [pyParseVal_ws f ' ' _ (by decide)]
        exact rtVal v hv ('}' :: rest) f (by omega) (head_not_digit_of '}' (by decide) rest)
      have hsk2 := skipWs_cons_of_not '}' rest (by decide)
      rw [hW, pyParseMembers_dquote, parseStrBody_escStr]
      simp only [hsk1, hA, hsk2]
  | (k, v) :: e :: kvs => by
    intro hclean rest fuel hfuel _
    have hv : pyClean v = true := band_true_left hclean
    have hkvs : pyCleanDict (e :: kvs) = true := band_true_right hclean
    cases fuel with
    | zero => omega
    | succ f =>
      have hrd : renderDict ((k, v) :: e :: kvs) =
        '"' :: ((escStr k.data ++ ['"', ':', ' ']) ++ renderChars v ++ [',', ' '] ++
          renderDict (e :: kvs)) := rfl
      have hL : (renderDict ((k, v) :: e :: kvs)).length =
          (escStr k.data).length + 6 + (renderChars v).length +
            (renderDict (e :: kvs)).length := by
        rw [hrd]; simp; omega
      have hW : renderDict ((k, v) :: e :: kvs) ++ '}' :: rest =
          '"' :: (escStr k.data ++ '"' :: ':' :: ' ' ::
            (renderChars v ++ ',' :: ' ' :: (renderDict (e :: kvs) ++ '}' :: rest))) := by
        rw [hrd]; simp
      have hsk1 := skipWs_cons_of_not ':'
        (' ' :: (renderChars v ++ ',' :: ' ' :: (renderDict (e :: kvs) ++ '}' :: rest)))
        (by decide)
      have hA : pyParseVal f
          (' ' :: (renderChars v ++ ',' :: ' ' :: (renderDict (e :: kvs) ++ '}' :: rest))) =
          some (v, ',' :: ' ' :: (renderDict (e :: kvs) ++ '}' :: rest)) := by
        rw [pyParseVal_ws f ' ' _ (by decide)]
        exact rtVal v hv (',' :: ' ' :: (renderDict (e :: kvs) ++ '}' :: rest)) f (by omega)
          (head_not_digit_of ',' (by decide) _)
      have hsk2 := skipWs_cons_of_not ','
        (' ' :: (renderDict (e :: kvs) ++ '}' :: rest)) (by decide)
      have hB : pyParseMembers f (' ' :: (renderDict (e :: kvs) ++ '}' :: rest)) =
          some (e :: kvs, rest) := by
        rw [pyParseMembers_ws f ' ' _ (by decide)]
        exact rtMembers (e :: kvs) hkvs rest f (by omega) (List.cons_ne_nil e kvs)
      rw [hW, pyParseMembers_dquote, parseStrBody_escStr]
      simp only [hsk1, hA, hsk2, hB]
end

theorem pyEval_render (v : PyVal) (h : pyClean v = true) :
    pyEval (render v) = Except.ok v := by
  unfold pyEval render
  have hparse : pyParseVal ((String.mk (renderChars v)).data.length + 1)
      (String.mk (renderChars v)).data = some (v, []) := by
    show pyParseVal ((renderChars v).length + 1) (renderChars v) = some (v, [])
    have hr := rtVal v h [] ((renderChars v).length + 1) (by omega)
      (by intro c hc; simp at hc)
    rwa [List.append_nil] at hr
  rw [hparse]
  rfl

theorem c3_render_null_counterexample :
    fit (render PyVal.none) 5 =
      Except.ok ⟨"failed", Option.none,
        FitData.failed "find_max_length() takes 1 positional argument but 2 were given"⟩ := rfl

/-- C3 (amended): for all well-formed literals `v` built from objects,
arrays, strings and numbers — containing no boolean and no null, whose
canonical renderings `true`/`false`/`null` are unbound names for the `eval`
that `fit` applies — `fit(render(v))` yields the `completed` outcome with a
value structurally equal to `v`.  (For literals containing booleans or
null, `fit` returns `failed`: see the counterexample at `null`.) -/
theorem c3_fit_render_roundtrip (v : PyVal) (h : pyClean v = true) :
    fit (render v) 5 =
      Except.ok ⟨"completed", Option.some (pyTypeName v), FitData.completed v []⟩ := by
  unfold fit
  rw [pyEval_render v h]

theorem c3_fit_render_roundtrip_witness :
    pyClean (PyVal.dict [("a", PyVal.int 1)]) = true ∧
    fit (render (PyVal.dict [("a", PyVal.int 1)])) 5 =
      Except.ok ⟨"completed", Option.some "dict",
        FitData.completed (PyVal.dict [("a", PyVal.int 1)]) []⟩ :=
  ⟨rfl, c3_fit_render_roundtrip (PyVal.dict [("a", PyVal.int 1)]) rfl⟩
